import Mathlib

/-!
Verification of the shutdown core of `stop_streams.py` (video_processor).

Shallow embedding conventions:

* Python `Dict[int, List[int]]` / `Dict[int, str]` are association lists in
  insertion order (`List (Nat × _)`); lookup is first-match (`List.find?`),
  mirroring that a Python dict has unique keys.
* The BFS worklist loops of `ProcessManager._collect_descendants` and
  `ProcessManager._collect_descendants_with_depth` are embedded with explicit
  fuel; `bfsFuel` is the bound under which the loop provably finishes
  (the seen-set lets each node be enqueued at most once).
* OS-effectful code (`os.kill`, `time.sleep`, `os.path.getsize`, renames,
  unlinks) is embedded by explicit state passing over abstract state types;
  exceptions of fallible calls are modelled by `Option` / `Except` /
  boolean outcomes, exactly at the places the Python code catches (or does
  not catch) them.
-/

/-! ## Process tree maps (`ProcessManager._build_process_maps` consumers) -/

/-- Embedding of `ppid_to_children.get(current, [])`: first-match association
lookup with `[]` as default. -/
def getChildren (m : List (Nat × List Nat)) (p : Nat) : List Nat :=
  match m.find? (fun e => e.1 == p) with
  | some e => e.2
  | none => []

/-- Every pid that occurs as a child anywhere in the map: the concatenation of
all child lists.  Used only to bound the BFS fuel and to state the tree-shape
hypothesis. -/
def childUniverse (m : List (Nat × List Nat)) : List Nat :=
  (m.map Prod.snd).flatten

/-- Number of universe members not yet in the seen-set (BFS termination
measure). -/
def unseenCount (m : List (Nat × List Nat)) (seen : List Nat) : Nat :=
  ((childUniverse m).filter (fun x => decide (x ∉ seen))).length

/-- Fuel that always suffices for the BFS loops below. -/
def bfsFuel (m : List (Nat × List Nat)) : Nat :=
  (childUniverse m).length + 1

/-- Inner `for child in ppid_to_children.get(current, [])` loop of
`_collect_descendants_with_depth`: children already seen are skipped, fresh
ones are added to the seen-set, recorded in the depth map at `d + 1`, and
appended to the queue (`acc`). -/
def expandDepth (d : Nat) :
    List Nat → List Nat → List (Nat × Nat) → List (Nat × Nat) →
    List Nat × List (Nat × Nat) × List (Nat × Nat)
  | [], seen, dm, acc => (seen, dm, acc)
  | c :: cs, seen, dm, acc =>
    if c ∈ seen then expandDepth d cs seen dm acc
    else expandDepth d cs (c :: seen) (dm ++ [(c, d + 1)]) (acc ++ [(c, d + 1)])

/-- Fuelled `while queue:` loop of `_collect_descendants_with_depth`.
`none` means the fuel ran out (never happens at `bfsFuel`, see
`bfsDepthAux_total`). -/
def bfsDepthAux (m : List (Nat × List Nat)) :
    Nat → List (Nat × Nat) → List Nat → List (Nat × Nat) → Option (List (Nat × Nat))
  | _, [], _, dm => some dm
  | 0, _ :: _, _, _ => none
  | fuel + 1, (cur, d) :: rest, seen, dm =>
    match expandDepth d (getChildren m cur) seen dm [] with
    | (seen2, dm2, add) => bfsDepthAux m fuel (rest ++ add) seen2 dm2

/-- Embedding of `ProcessManager._collect_descendants_with_depth`:
BFS from `root` over the children map, returning `{pid: depth}` as an
insertion-ordered association list. -/
def collect_descendants_with_depth (m : List (Nat × List Nat)) (root : Nat) :
    List (Nat × Nat) :=
  (bfsDepthAux m (bfsFuel m) [(root, 0)] [root] []).getD []

/-- Inner children loop of `_collect_descendants` (no depth bookkeeping). -/
def expandPlain :
    List Nat → List Nat → List Nat → List Nat →
    List Nat × List Nat × List Nat
  | [], seen, desc, acc => (seen, desc, acc)
  | c :: cs, seen, desc, acc =>
    if c ∈ seen then expandPlain cs seen desc acc
    else expandPlain cs (c :: seen) (desc ++ [c]) (acc ++ [c])

/-- Fuelled `while queue:` loop of `_collect_descendants`. -/
def bfsPlainAux (m : List (Nat × List Nat)) :
    Nat → List Nat → List Nat → List Nat → Option (List Nat)
  | _, [], _, desc => some desc
  | 0, _ :: _, _, _ => none
  | fuel + 1, cur :: rest, seen, desc =>
    match expandPlain (getChildren m cur) seen desc [] with
    | (seen2, desc2, add) => bfsPlainAux m fuel (rest ++ add) seen2 desc2

/-- Embedding of `ProcessManager._collect_descendants`. -/
def collect_descendants (m : List (Nat × List Nat)) (root : Nat) : List Nat :=
  (bfsPlainAux m (bfsFuel m) [root] [root] []).getD []

/-- Reachability with an edge count: `ReachN m root x n` means there is a
parent-to-child path of exactly `n` edges from `root` to `x` in the children
map `m`. -/
inductive ReachN (m : List (Nat × List Nat)) (root : Nat) : Nat → Nat → Prop
  | refl : ReachN m root root 0
  | step {p c n} : ReachN m root p n → c ∈ getChildren m p → ReachN m root c (n + 1)

/-! ## Target selection (`ProcessManager._select_target_child_pid`) -/

/-- Boolean list-prefix test, building block of substring containment. -/
def listInitSeg : List Char → List Char → Bool
  | [], _ => true
  | _ :: _, [] => false
  | a :: as, b :: bs => a == b && listInitSeg as bs

/-- Python `sub in hay` substring containment on character lists. -/
def listHasSub (needle : List Char) : List Char → Bool
  | [] => needle.isEmpty
  | b :: bs => listInitSeg needle (b :: bs) || listHasSub needle bs

/-- Python `sub in hay` on strings. -/
def strContains (hay sub : String) : Bool :=
  listHasSub sub.data hay.data

/-- Embedding of the nested `score_cmdline` heuristic of
`_select_target_child_pid`: +100 for a `run.py` marker, +60 for a python
interpreter marker, +50 for a space-bounded ` uv ` marker, and -100 for each
blocklisted shell/tool marker found in the space-padded command line. -/
def score_cmdline (cmd : String) : Int :=
  let pad := " " ++ cmd ++ " "
  let s : Int := 0
  let s := if strContains cmd "run.py" then s + 100 else s
  let s := if strContains cmd "python" || strContains cmd "python3" then s + 60 else s
  let s := if strContains pad " uv " then s + 50 else s
  [" bash", " sh ", " screen", " pstree", " ps "].foldl
    (fun acc sh => if strContains pad sh then acc - 100 else acc) s

/-- Embedding of `pid_to_cmd.get(pid, '')`. -/
def lookupCmd (m : List (Nat × String)) (pid : Nat) : String :=
  match m.find? (fun e => e.1 == pid) with
  | some e => e.2
  | none => ""

/-- The candidate list `(pid, score, depth)` built from the depth map in its
insertion (BFS discovery) order, as in the Python `for pid, depth in
depth_map.items()` loop.  (The Python tuple also carries the command line, used
only for logging.) -/
def candidatesOf (children : List (Nat × List Nat)) (cmds : List (Nat × String))
    (root : Nat) : List (Nat × Int × Nat) :=
  (collect_descendants_with_depth children root).map
    (fun pr => (pr.1, score_cmdline (lookupCmd cmds pr.1), pr.2))

/-- Candidate ordering key of the Python `candidates.sort(key=lambda x:
(x[1], x[2]), reverse=True)`: `a` may come no later than `b` iff `a`'s
`(score, depth)` is lexicographically at least `b`'s. -/
def candKeyGE (a b : Nat × Int × Nat) : Bool :=
  decide (b.2.1 < a.2.1 ∨ (a.2.1 = b.2.1 ∧ b.2.2 ≤ a.2.2))

/-- Stable descending insertion: an element is placed before the first element
it strictly... more precisely, before the first element whose key it weakly
exceeds, so that among equal keys, earlier input elements stay first — the
semantics of Python's stable `list.sort(..., reverse=True)`. -/
def insertCand (a : Nat × Int × Nat) :
    List (Nat × Int × Nat) → List (Nat × Int × Nat)
  | [] => [a]
  | b :: bs => if candKeyGE a b then a :: b :: bs else b :: insertCand a bs

/-- Stable descending sort by `(score, depth)`, replicating the Python
`sort(key=..., reverse=True)`. -/
def sortCands : List (Nat × Int × Nat) → List (Nat × Int × Nat)
  | [] => []
  | a :: as => insertCand a (sortCands as)

/-- Embedding of `ProcessManager._select_target_child_pid`, parameterised over
the process maps (in the Python they come from `_build_process_maps`): build
the depth map; if empty return `none`; otherwise return the first candidate
with strictly positive score in `(score, depth)`-descending order, and if
there is none, the head of the sorted candidate list. -/
def select_target_child_pid (children : List (Nat × List Nat))
    (cmds : List (Nat × String)) (screenPid : Nat) : Option Nat :=
  let depthMap := collect_descendants_with_depth children screenPid
  if depthMap.isEmpty then none
  else
    let sorted := sortCands (candidatesOf children cmds screenPid)
    match sorted.find? (fun c => decide (0 < c.2.1)) with
    | some c => some c.1
    | none =>
      match sorted with
      | c :: _ => some c.1
      | [] => none

/-! ## Graceful termination (`ProcessManager.kill_processes_by_pid`)

The OS is an abstract state `σ`: sending a signal transforms the state,
`time.sleep(1)` transforms the state, and the signal-0 existence probe
`os.kill(pid, 0)` is a pure read (`true` iff the call returns without an
exception; `ProcessLookupError` and every other exception make the Python
code treat the pid as not running). -/

/-- Abstract OS world for the termination protocol. -/
structure OSModel (σ : Type) where
  probe : σ → Nat → Bool
  sendTerm : σ → Nat → σ
  sendKill : σ → Nat → σ
  sleep : σ → σ

/-- Signals actually dispatched by `kill_processes_by_pid`, in order. -/
inductive SigEvent where
  | term (pid : Nat)
  | kill (pid : Nat)
deriving DecidableEq

/-- State after the SIGTERM loop (`for pid in pids: os.kill(pid, SIGTERM)`). -/
def postTermState {σ : Type} (m : OSModel σ) (s : σ) (pids : List Nat) : σ :=
  pids.foldl m.sendTerm s

/-- The grace loop `for sec in range(1, grace_period + 1)`: probe all pids; if
none answers, break without sleeping; otherwise sleep one second and continue.
Returns the state in which the post-grace re-probe happens. -/
def graceWait {σ : Type} (m : OSModel σ) (pids : List Nat) : Nat → σ → σ
  | 0, s => s
  | n + 1, s => if pids.any (fun p => m.probe s p) then graceWait m pids n (m.sleep s) else s

/-- State in which the code decides which pids still need SIGKILL. -/
def postGraceState {σ : Type} (m : OSModel σ) (s : σ) (pids : List Nat)
    (grace : Nat) : σ :=
  graceWait m pids grace (postTermState m s pids)

/-- Embedding of `ProcessManager.kill_processes_by_pid`: empty batch returns
`True` immediately; otherwise SIGTERM everything, run the grace loop, SIGKILL
every pid still answering the probe, and return `True` iff no original pid
answers the final re-probe.  Besides the boolean result it returns the final
OS state (the one the final re-probe reads) and the list of signals sent. -/
def kill_processes_by_pid {σ : Type} (m : OSModel σ) (s : σ) (pids : List Nat)
    (grace : Nat) : Bool × σ × List SigEvent :=
  if pids.isEmpty then (true, s, [])
  else
    let s2 := postGraceState m s pids grace
    let remaining := pids.filter (fun p => m.probe s2 p)
    let s3 := remaining.foldl m.sendKill s2
    let finalRunning := pids.filter (fun p => m.probe s3 p)
    (finalRunning.isEmpty, s3, pids.map SigEvent.term ++ remaining.map SigEvent.kill)

/-- Concrete OS world for witnesses: the state is the list of live pids, the
process ignores SIGTERM, SIGKILL removes it, sleeping changes nothing. -/
def stubbornOS : OSModel (List Nat) where
  probe := fun s p => decide (p ∈ s)
  sendTerm := fun s _ => s
  sendKill := fun s p => s.erase p
  sleep := fun s => s

/-! ## File stability (`FileProcessor.is_file_stable`)

The observed file is a sequence of size observations: `obs k` is what the
`k`-th `os.path.getsize` call reports (`none` = the call raises `OSError`).
The instrumented run also returns how many samples were taken before the
function returned, so "returns true at the k-th sample" is expressible. -/

/-- The `for _ in range(max_wait)` sampling loop, instrumented with the number
of samples taken.  Arguments after the fuel: samples taken so far, `prev_size`
(initially `-1`), `same_count`. -/
def stableLoopRun (obs : Nat → Option Nat) (check_count : Nat) :
    Nat → Nat → Int → Nat → Bool × Nat
  | 0, taken, _, _ => (false, taken)
  | n + 1, taken, prev, same =>
    match obs (taken + 1) with
    | none => (false, taken + 1)
    | some sz =>
      if (sz : Int) = prev ∧ 0 ≤ prev then
        if check_count ≤ same + 1 then (true, taken + 1)
        else stableLoopRun obs check_count n (taken + 1) prev (same + 1)
      else
        stableLoopRun obs check_count n (taken + 1) (sz : Int) 0

/-- Instrumented embedding of `FileProcessor.is_file_stable`: the boolean is
the Python return value, the number is the count of size samples taken.
`exists0` is the initial `os.path.exists` check. -/
def is_file_stable_run (exists0 : Bool) (obs : Nat → Option Nat)
    (check_count max_wait : Nat) : Bool × Nat :=
  if !exists0 then (false, 0) else stableLoopRun obs check_count max_wait 0 (-1) 0

/-- Embedding of `FileProcessor.is_file_stable` (return value only). -/
def is_file_stable (exists0 : Bool) (obs : Nat → Option Nat)
    (check_count max_wait : Nat) : Bool :=
  (is_file_stable_run exists0 obs check_count max_wait).1

/-! ## Final sweep (`FileProcessor.final_sweep_move`)

The temp directory is the list of its file names (in the `glob("*")`
enumeration order); the destination directory string mirrors the
`Path(final) / str(year) / month / day / hour` join.  `renameOk` tells
whether the `file_path.rename` call succeeds or raises `OSError` (logged,
file stays, loop continues); `mkdir(parents=True, exist_ok=True)` is assumed
to succeed. -/

/-- ASCII decimal digit test (the `\d` of the sweep regex). -/
def isDigitCh (c : Char) : Bool :=
  '0' ≤ c && c ≤ '9'

/-- Numeric value of a digit character. -/
def digitVal (c : Char) : Nat :=
  c.toNat - '0'.toNat

/-- Embedding of `re.search(r'_(\d{6})_(\d{6})\.(mp4|srt)$', name)` plus the
date/time parsing of `final_sweep_move`.  The regex is end-anchored with a
fixed 18-character shape, so it matches iff the last 18 characters are
`_DDDDDD_TTTTTT.mp4` or `_DDDDDD_TTTTTT.srt`; on a match the result is
`(2000 + YY, MM, DD, HH)` with month/day/hour kept as two-character strings
exactly as the Python slices them. -/
def sweepParse (name : String) : Option (Nat × String × String × String) :=
  let cs := name.data
  if cs.length < 18 then none
  else
    match cs.drop (cs.length - 18) with
    | '_' :: d1 :: d2 :: d3 :: d4 :: d5 :: d6 ::
      '_' :: t1 :: t2 :: t3 :: t4 :: t5 :: t6 :: '.' :: e1 :: e2 :: e3 :: [] =>
      if (isDigitCh d1 && isDigitCh d2 && isDigitCh d3 && isDigitCh d4 &&
          isDigitCh d5 && isDigitCh d6 && isDigitCh t1 && isDigitCh t2 &&
          isDigitCh t3 && isDigitCh t4 && isDigitCh t5 && isDigitCh t6) &&
         ((e1 == 'm' && e2 == 'p' && e3 == '4') ||
          (e1 == 's' && e2 == 'r' && e3 == 't')) then
        some (2000 + (10 * digitVal d1 + digitVal d2),
              String.mk [d3, d4], String.mk [d5, d6], String.mk [t1, t2])
      else none
    | _ => none

/-- Destination directory `final_root/year/month/day/hour` for a matching
name, `none` when the pattern does not match. -/
def sweepDest (root : String) (name : String) : Option String :=
  (sweepParse name).map
    (fun info => root ++ "/" ++ toString info.1 ++ "/" ++ info.2.1 ++ "/" ++
      info.2.2.1 ++ "/" ++ info.2.2.2)

/-- Result of one sweep pass: the returned `moved_count`, the files left in
the temp directory, and the `(destination directory, file name)` pairs of the
performed moves, in move order. -/
structure SweepResult where
  moved : Nat
  remaining : List String
  placed : List (String × String)
deriving DecidableEq

/-- Python `name.startswith(p)` on strings (via character lists, like
`strContains`). -/
def strStartsWith (s p : String) : Bool :=
  listInitSeg p.data s.data

/-- Per-file loop of `final_sweep_move`: skip names with the `temp_` prefix,
skip names the pattern does not match, otherwise move (unless the rename
raises). -/
def sweepGo (root : String) (renameOk : String → Bool) : List String → SweepResult
  | [] => ⟨0, [], []⟩
  | f :: fs =>
    let r := sweepGo root renameOk fs
    if strStartsWith f "temp_" then ⟨r.moved, f :: r.remaining, r.placed⟩
    else
      match sweepDest root f with
      | none => ⟨r.moved, f :: r.remaining, r.placed⟩
      | some dir =>
        if renameOk f then ⟨r.moved + 1, r.remaining, (dir, f) :: r.placed⟩
        else ⟨r.moved, f :: r.remaining, r.placed⟩

/-- Embedding of `FileProcessor.final_sweep_move`: if the temp directory does
not exist the pass reports 0 moves; otherwise every entry is processed in
order. -/
def final_sweep_move (tempExists : Bool) (files : List String) (root : String)
    (renameOk : String → Bool) : SweepResult :=
  if tempExists then sweepGo root renameOk files else ⟨0, files, []⟩

/-! ## Process table query (`ProcessManager._build_process_maps`) -/

/-- Outcome of the `subprocess.run(['ps', ...], check=True)` call: the stdout
lines on success, a `CalledProcessError` when `ps` exits non-zero, a
`FileNotFoundError` when the `ps` binary is missing. -/
inductive PsOutcome where
  | success (lines : List String)
  | calledProcessError
  | fileNotFound

/-- Python whitespace class used by `str.strip()` / `str.split(None, ...)`. -/
def isWS (c : Char) : Bool :=
  c == ' ' || c == '\t' || c == '\n' || c == '\r' || c == '\x0b' || c == '\x0c'

/-- `line.strip()`. -/
def stripWS (s : String) : String :=
  String.mk (((s.data.dropWhile isWS).reverse.dropWhile isWS).reverse)

/-- `line.split(None, 2)` on an already stripped line: at most two whitespace
splits, the third part is the remainder verbatim. -/
def splitMax2 (s : String) : List String :=
  let cs := s.data.dropWhile isWS
  match cs.takeWhile (fun c => !isWS c), (cs.dropWhile (fun c => !isWS c)).dropWhile isWS with
  | [], _ => []
  | p1, rest1 =>
    match rest1.takeWhile (fun c => !isWS c),
          (rest1.dropWhile (fun c => !isWS c)).dropWhile isWS with
    | [], _ => [String.mk p1]
    | p2, [] => [String.mk p1, String.mk p2]
    | p2, rest2 => [String.mk p1, String.mk p2, String.mk rest2]

/-- `int(tok)` for the pid/ppid columns: succeeds on a non-empty all-digit
token (`ValueError` otherwise makes the code skip the line). -/
def parseNatTok (s : String) : Option Nat :=
  if s.data ≠ [] ∧ s.data.all isDigitCh then
    some (s.data.foldl (fun acc c => 10 * acc + digitVal c) 0)
  else none

/-- `ppid_to_children.setdefault(ppid, []).append(pid)` on an
insertion-ordered association list. -/
def appendChild (m : List (Nat × List Nat)) (k v : Nat) : List (Nat × List Nat) :=
  match m with
  | [] => [(k, [v])]
  | (k2, vs) :: rest =>
    if k2 == k then (k2, vs ++ [v]) :: rest else (k2, vs) :: appendChild rest k v

/-- `pid_to_cmd[pid] = cmdline`: overwrite in place if the key exists, append
otherwise (Python dict update keeps insertion position). -/
def setCmd (m : List (Nat × String)) (k : Nat) (v : String) : List (Nat × String) :=
  match m with
  | [] => [(k, v)]
  | (k2, v2) :: rest =>
    if k2 == k then (k2, v) :: rest else (k2, v2) :: setCmd rest k v

/-- Per-line body of the `for line in ps.stdout.split('\n')` loop. -/
def buildMapsLine (acc : List (Nat × List Nat) × List (Nat × String))
    (line : String) : List (Nat × List Nat) × List (Nat × String) :=
  let line := stripWS line
  if line.data.isEmpty then acc
  else
    match splitMax2 line with
    | p0 :: p1 :: rest =>
      match parseNatTok p0, parseNatTok p1 with
      | some pid, some ppid =>
        let cmdline := match rest with
          | c :: _ => c
          | [] => ""
        (appendChild acc.1 ppid pid, setCmd acc.2 pid cmdline)
      | _, _ => acc
    | _ => acc

/-- Embedding of `ProcessManager._build_process_maps`.  A `CalledProcessError`
is caught and yields the (empty) maps built so far; a `FileNotFoundError` has
no handler in the function and propagates (`Except.error`). -/
def build_process_maps (o : PsOutcome) :
    Except Unit (List (Nat × List Nat) × List (Nat × String)) :=
  match o with
  | .success lines => .ok (lines.foldl buildMapsLine ([], []))
  | .calledProcessError => .ok ([], [])
  | .fileNotFound => .error ()

/-! ## Temp env cleanup (`StreamStopManager.cleanup_temp_files`) -/

/-- The only names `cleanup_temp_files` ever touches: `.env.temp1` ..
`.env.temp6` from the `for i in range(1, 7)` loop, then `.env`. -/
def tempEnvNames : List String :=
  ((List.range 6).map (fun i => ".env.temp" ++ toString (i + 1))) ++ [".env"]

/-- Embedding of `StreamStopManager.cleanup_temp_files` over the script
directory contents `fs` (the list of existing file names): each of the seven
candidate names is unlinked if present and counted; the count and the
resulting directory contents are returned. -/
def cleanup_temp_files (fs : List String) : Nat × List String :=
  tempEnvNames.foldl
    (fun acc name => if name ∈ acc.2 then (acc.1 + 1, acc.2.erase name) else acc)
    (0, fs)

/-! ## Theorems -/

/-- C9: `kill_processes_by_pid` on an empty PID list returns `True` at once:
the OS state is untouched (no signal, no sleep) and no signal event is
emitted. -/
theorem kill_processes_empty_batch {σ : Type} (m : OSModel σ) (s : σ)
    (grace : Nat) : kill_processes_by_pid m s [] grace = (true, s, []) :=
  rfl

/-- C1: `kill_processes_by_pid` returns `True` iff no original pid answers the
signal-0 probe in the final state (the state the call returns, read after the
escalation), and every pid that still answers the probe in the post-grace
state is sent SIGKILL (an event of the returned trace, which precedes the
final re-probe by construction: the final probe reads the post-kill state). -/
theorem kill_processes_true_iff_none_alive {σ : Type} (m : OSModel σ) (s : σ)
    (pids : List Nat) (grace : Nat) :
    ((kill_processes_by_pid m s pids grace).1 = true ↔
      ∀ p ∈ pids, m.probe (kill_processes_by_pid m s pids grace).2.1 p = false) ∧
    (∀ p ∈ pids, m.probe (postGraceState m s pids grace) p = true →
      SigEvent.kill p ∈ (kill_processes_by_pid m s pids grace).2.2) := by
  by_cases h : pids.isEmpty
  · have : pids = [] := List.isEmpty_iff.mp h
    subst this
    simp [kill_processes_by_pid]
  · unfold kill_processes_by_pid
    simp only [h, Bool.false_eq_true, if_false]
    constructor
    · simp only [List.isEmpty_iff, List.filter_eq_nil_iff, Bool.not_eq_true]
    · intro p hp hprobe
      refine List.mem_append_right _ ?_
      exact List.mem_map_of_mem _ (List.mem_filter.mpr ⟨hp, hprobe⟩)

/-- C1 witness: a single stubborn process (pid 5) that ignores SIGTERM is
escalated to SIGKILL and the call reports success. -/
theorem kill_processes_true_iff_none_alive_witness :
    ((kill_processes_by_pid stubbornOS [5] [5] 3).1 = true ↔
      ∀ p ∈ [5], stubbornOS.probe (kill_processes_by_pid stubbornOS [5] [5] 3).2.1 p = false) ∧
    SigEvent.kill 5 ∈ (kill_processes_by_pid stubbornOS [5] [5] 3).2.2 :=
  ⟨(kill_processes_true_iff_none_alive stubbornOS [5] [5] 3).1,
   (kill_processes_true_iff_none_alive stubbornOS [5] [5] 3).2 5 (by decide) (by decide)⟩

/-- C6 counterexample: when the `ps` binary is missing
(`FileNotFoundError`), `_build_process_maps` does not return empty maps — the
exception propagates, because the function only catches
`CalledProcessError`. -/
theorem build_process_maps_missing_tool_raises :
    build_process_maps PsOutcome.fileNotFound ≠
      Except.ok (([], []) : List (Nat × List Nat) × List (Nat × String)) :=
  fun h => Except.noConfusion h

/-- C6 amended: an erroring `ps` invocation (`CalledProcessError`) yields the
pair of empty maps; a missing `ps` binary (`FileNotFoundError`) raises
instead of returning. -/
theorem build_process_maps_error_cases :
    build_process_maps PsOutcome.calledProcessError =
      Except.ok (([], []) : List (Nat × List Nat) × List (Nat × String)) ∧
    build_process_maps PsOutcome.fileNotFound = Except.error () :=
  ⟨rfl, rfl⟩

/-- C3 counterexample: with `check_count = 3` and a file that exists and holds
size 1024 at every sample, `is_file_stable` returns `True` only at the 4th
sample (the 1st sample just initialises `prev_size = 1024`; the counter then
needs 3 further unchanged samples), not at the 3rd. -/
theorem is_file_stable_not_third_sample :
    is_file_stable_run true (fun _ => some 1024) 3 15 = (true, 4) ∧
    is_file_stable_run true (fun _ => some 1024) 3 15 ≠ (true, 3) := by
  constructor
  · rfl
  · decide

/-- C3 amended: for an existing file observed at 1024 bytes on every sample
with `check_count = 3` and `max_wait = 15`, `is_file_stable` returns `True`
at the 4th sample and not at any earlier sample. -/
theorem is_file_stable_fourth_sample :
    is_file_stable_run true (fun _ => some 1024) 3 15 = (true, 4) ∧
    is_file_stable true (fun _ => some 1024) 3 15 = true :=
  ⟨rfl, rfl⟩

/-- Folding the delete-if-present step over pairwise distinct names on a
duplicate-free directory counts exactly the present names and removes exactly
them. -/
theorem cleanup_fold_characterisation (names : List String) :
    ∀ (fs : List String) (c : Nat), names.Nodup → fs.Nodup →
    names.foldl
        (fun acc name => if name ∈ acc.2 then (acc.1 + 1, acc.2.erase name) else acc)
        (c, fs)
      = (c + (names.filter (fun n => decide (n ∈ fs))).length,
         fs.filter (fun f => decide (f ∉ names))) := by
  induction names with
  | nil => intro fs c _ _; simp
  | cons n ns ih =>
    intro fs c hn hfs
    have hnn : n ∉ ns := (List.nodup_cons.mp hn).1
    have hns : ns.Nodup := (List.nodup_cons.mp hn).2
    simp only [List.foldl_cons]
    by_cases hmem : n ∈ fs
    · rw [if_pos hmem, ih (fs.erase n) (c + 1) hns (hfs.erase n)]
      have h1 : ns.filter (fun x => decide (x ∈ fs.erase n))
          = ns.filter (fun x => decide (x ∈ fs)) := by
        refine List.filter_congr ?_
        intro x hx
        have hxn : x ≠ n := fun h => hnn (h ▸ hx)
        simp [hfs.mem_erase_iff, hxn]
      have h2 : (fs.erase n).filter (fun f => decide (f ∉ ns))
          = fs.filter (fun f => decide (f ∉ n :: ns)) := by
        rw [hfs.erase_eq_filter, List.filter_filter]
        refine List.filter_congr ?_
        intro x _
        simp only [List.mem_cons, decide_not]
        by_cases hxn : x = n <;> by_cases hxs : x ∈ ns <;> simp [hxn, hxs]
      rw [h1, h2]
      have h3 : ((n :: ns).filter (fun x => decide (x ∈ fs))).length
          = (ns.filter (fun x => decide (x ∈ fs))).length + 1 := by
        simp [List.filter_cons, hmem]
      rw [h3]
      simp only [Prod.mk.injEq]
      exact ⟨by omega, trivial⟩
    · rw [if_neg hmem, ih fs c hns hfs]
      have h2 : fs.filter (fun f => decide (f ∉ ns))
          = fs.filter (fun f => decide (f ∉ n :: ns)) := by
        refine List.filter_congr ?_
        intro x hx
        have hxn : x ≠ n := fun h => hmem (h ▸ hx)
        simp [List.mem_cons, hxn]
      rw [h2]
      simp [List.filter_cons, hmem]

/-- C10: on a duplicate-free script directory, `cleanup_temp_files` returns
exactly the number of the seven candidate names (`.env.temp1` .. `.env.temp6`,
`.env`) that existed, and the directory afterwards is the original contents
minus exactly those names — every other path is untouched. -/
theorem cleanup_temp_files_frame (fs : List String) (h : fs.Nodup) :
    (cleanup_temp_files fs).1
      = (tempEnvNames.filter (fun n => decide (n ∈ fs))).length ∧
    (cleanup_temp_files fs).2
      = fs.filter (fun f => decide (f ∉ tempEnvNames)) := by
  have hnames : tempEnvNames.Nodup := by decide
  unfold cleanup_temp_files
  rw [cleanup_fold_characterisation tempEnvNames fs 0 hnames h]
  simp

/-- C10 witness: a directory holding `.env`, a media file and `.env.temp3`
loses exactly the two env files and reports 2. -/
theorem cleanup_temp_files_frame_witness :
    (cleanup_temp_files [".env", "data.mp4", ".env.temp3"]).1
      = (tempEnvNames.filter
          (fun n => decide (n ∈ [".env", "data.mp4", ".env.temp3"]))).length ∧
    (cleanup_temp_files [".env", "data.mp4", ".env.temp3"]).2
      = [".env", "data.mp4", ".env.temp3"].filter
          (fun f => decide (f ∉ tempEnvNames)) :=
  cleanup_temp_files_frame [".env", "data.mp4", ".env.temp3"] (by decide)

/-- C4: with all renames succeeding, a sweep pass moves exactly the files
whose name lacks the `temp_` prefix and matches the trailing
`_DDDDDD_TTTTTT.(mp4|srt)` pattern, placing each at
`final_root/(2000+YY)/MM/DD/HH/` under its own name and leaving every other
file untouched; concretely, `cam1_250131_235901.mp4` lands at
`final/2025/01/31/23/cam1_250131_235901.mp4` while
`temp_cam1_250131_235901.mp4` and a non-matching name stay in place. -/
theorem final_sweep_move_routes :
    (∀ (files : List String) (root : String),
      (final_sweep_move true files root (fun _ => true)).placed
        = files.filterMap (fun f => if strStartsWith f "temp_" then none
            else (sweepDest root f).map (fun dir => (dir, f)))
      ∧ (final_sweep_move true files root (fun _ => true)).remaining
        = files.filter (fun f => strStartsWith f "temp_" || (sweepDest root f).isNone)
      ∧ (final_sweep_move true files root (fun _ => true)).moved
        = ((final_sweep_move true files root (fun _ => true)).placed).length)
    ∧ final_sweep_move true
        ["cam1_250131_235901.mp4", "temp_cam1_250131_235901.mp4", "clip.txt"]
        "final" (fun _ => true)
      = ⟨1, ["temp_cam1_250131_235901.mp4", "clip.txt"],
          [("final/2025/01/31/23", "cam1_250131_235901.mp4")]⟩ := by
  constructor
  · intro files root
    have hred : ∀ (fs : List String) (ok : String → Bool),
        final_sweep_move true fs root ok = sweepGo root ok fs := fun _ _ => rfl
    simp only [hred]
    induction files with
    | nil => simp [sweepGo]
    | cons f fs ih =>
      obtain ⟨ih1, ih2, ih3⟩ := ih
      by_cases h1 : strStartsWith f "temp_"
      · simp [sweepGo, h1, ih1, ih2, ih3]
      · cases hd : sweepDest root f with
        | none => simp [sweepGo, h1, hd, ih1, ih2, ih3]
        | some dir => simp [sweepGo, h1, hd, ih1, ih2, ih3]
  · rfl

/-- A sweep pass over files that all either carry the `temp_` prefix or fail
the pattern moves nothing. -/
theorem sweepGo_all_skipped (root : String) (ok : String → Bool) :
    ∀ fs : List String,
    (∀ f ∈ fs, strStartsWith f "temp_" = true ∨ sweepDest root f = none) →
    sweepGo root ok fs = ⟨0, fs, []⟩ := by
  intro fs
  induction fs with
  | nil => intro _; rfl
  | cons f fs ih =>
    intro h
    have hf := h f (List.mem_cons_self f fs)
    have hrest := ih (fun g hg => h g (List.mem_cons_of_mem f hg))
    rcases hf with hf | hf
    · simp [sweepGo, hf, hrest]
    · by_cases h1 : strStartsWith f "temp_"
      · simp [sweepGo, h1, hrest]
      · simp [sweepGo, h1, hf, hrest]

/-- When every attempted rename succeeds, what a sweep pass leaves behind is
only prefix-carrying or pattern-failing files. -/
theorem sweepGo_remaining_skipped (root : String) (ok : String → Bool) :
    ∀ fs : List String,
    (∀ f ∈ fs, strStartsWith f "temp_" = false → (sweepDest root f).isSome → ok f = true) →
    ∀ f ∈ (sweepGo root ok fs).remaining,
      strStartsWith f "temp_" = true ∨ sweepDest root f = none := by
  intro fs
  induction fs with
  | nil => intro _ f hf; cases hf
  | cons f fs ih =>
    intro h g hg
    have hrest := ih (fun x hx => h x (List.mem_cons_of_mem f hx))
    by_cases h1 : strStartsWith f "temp_"
    · simp only [sweepGo, h1, if_pos] at hg
      rcases List.mem_cons.mp hg with hg | hg
      · exact Or.inl (hg ▸ h1)
      · exact hrest g hg
    · cases hd : sweepDest root f with
      | none =>
        simp only [sweepGo, h1, if_neg, Bool.false_eq_true, hd] at hg
        rcases List.mem_cons.mp hg with hg | hg
        · exact Or.inr (hg ▸ hd)
        · exact hrest g hg
      | some dir =>
        have hok : ok f = true := by
          refine h f (List.mem_cons_self f fs) ?_ ?_
          · simp [h1]
          · simp [hd]
        simp only [sweepGo, h1, Bool.false_eq_true, if_neg, hd, hok, if_pos] at hg
        exact hrest g hg

/-- C7: sweep relocation is idempotent — if a pass over the temp directory
completes with every attempted rename succeeding, an immediately repeated
pass over the resulting directory (with any rename behaviour) moves zero
files, returns 0, and changes nothing. -/
theorem final_sweep_move_idempotent (files : List String) (root : String)
    (ok ok2 : String → Bool)
    (h : ∀ f ∈ files, strStartsWith f "temp_" = false → (sweepDest root f).isSome →
      ok f = true) :
    final_sweep_move true (final_sweep_move true files root ok).remaining root ok2
      = ⟨0, (final_sweep_move true files root ok).remaining, []⟩ := by
  have hred : ∀ (fs : List String) (ok3 : String → Bool),
      final_sweep_move true fs root ok3 = sweepGo root ok3 fs := fun _ _ => rfl
  simp only [hred]
  exact sweepGo_all_skipped root ok2 (sweepGo root ok files).remaining
    (sweepGo_remaining_skipped root ok files h)

/-- C7 witness: a directory holding one finished file is drained by the first
pass; the second pass moves nothing. -/
theorem final_sweep_move_idempotent_witness :
    final_sweep_move true
        (final_sweep_move true ["a_250131_235901.mp4"] "out" (fun _ => true)).remaining
        "out" (fun _ => true)
      = ⟨0, (final_sweep_move true ["a_250131_235901.mp4"] "out"
              (fun _ => true)).remaining, []⟩ :=
  final_sweep_move_idempotent ["a_250131_235901.mp4"] "out" (fun _ => true)
    (fun _ => true) (by decide)

/-- The candidate key order is reflexive. -/
theorem candKeyGE_refl (a : Nat × Int × Nat) : candKeyGE a a = true := by
  simp [candKeyGE]

/-- The candidate key order is total. -/
theorem candKeyGE_total (a b : Nat × Int × Nat) :
    candKeyGE a b = true ∨ candKeyGE b a = true := by
  simp only [candKeyGE, decide_eq_true_eq]
  omega

/-- The candidate key order is transitive. -/
theorem candKeyGE_trans {a b c : Nat × Int × Nat} (h1 : candKeyGE a b = true)
    (h2 : candKeyGE b c = true) : candKeyGE a c = true := by
  simp only [candKeyGE, decide_eq_true_eq] at h1 h2 ⊢
  omega

/-- Membership in a stable insertion. -/
theorem mem_insertCand {x a : Nat × Int × Nat} {l : List (Nat × Int × Nat)} :
    x ∈ insertCand a l ↔ x = a ∨ x ∈ l := by
  induction l with
  | nil => simp [insertCand]
  | cons b bs ih =>
    by_cases h : candKeyGE a b = true
    · simp only [insertCand, if_pos h, List.mem_cons]
    · simp only [insertCand, if_neg h, List.mem_cons, ih]
      tauto

/-- The stable sort permutes membership. -/
theorem mem_sortCands {x : Nat × Int × Nat} {l : List (Nat × Int × Nat)} :
    x ∈ sortCands l ↔ x ∈ l := by
  induction l with
  | nil => simp [sortCands]
  | cons a as ih => simp [sortCands, mem_insertCand, ih, List.mem_cons]

/-- Stable insertion preserves descending sortedness. -/
theorem pairwise_insertCand {a : Nat × Int × Nat} {l : List (Nat × Int × Nat)}
    (h : l.Pairwise (fun x y => candKeyGE x y = true)) :
    (insertCand a l).Pairwise (fun x y => candKeyGE x y = true) := by
  induction l with
  | nil => simp [insertCand]
  | cons b bs ih =>
    obtain ⟨hb, hbs⟩ := List.pairwise_cons.mp h
    by_cases hab : candKeyGE a b = true
    · rw [insertCand, if_pos hab]
      refine List.pairwise_cons.mpr ⟨?_, h⟩
      intro y hy
      rcases List.mem_cons.mp hy with hy | hy
      · exact hy ▸ hab
      · exact candKeyGE_trans hab (hb y hy)
    · rw [insertCand, if_neg hab]
      refine List.pairwise_cons.mpr ⟨?_, ih hbs⟩
      intro y hy
      rcases mem_insertCand.mp hy with hy | hy
      · subst hy
        rcases candKeyGE_total b y with hby | hyb
        · exact hby
        · exact absurd hyb hab
      · exact hb y hy

/-- The stable sort is descending-sorted. -/
theorem pairwise_sortCands (l : List (Nat × Int × Nat)) :
    (sortCands l).Pairwise (fun x y => candKeyGE x y = true) := by
  induction l with
  | nil => simp [sortCands]
  | cons a as ih => exact pairwise_insertCand ih

/-- Insertion lengthens a list by one. -/
theorem length_insertCand (a : Nat × Int × Nat) (l : List (Nat × Int × Nat)) :
    (insertCand a l).length = l.length + 1 := by
  induction l with
  | nil => rfl
  | cons b bs ih =>
    by_cases h : candKeyGE a b = true
    · simp [insertCand, h]
    · simp [insertCand, h, ih]

/-- Sorting preserves length. -/
theorem length_sortCands (l : List (Nat × Int × Nat)) :
    (sortCands l).length = l.length := by
  induction l with
  | nil => rfl
  | cons a as ih => simp [sortCands, length_insertCand, ih]

/-- C2 counterexample: under children map `{1: [2, 4], 2: [3]}` with
command lines `{2: "bash job", 3: "bash job2", 4: "sleep"}`, no candidate
scores positively, yet `_select_target_child_pid(1)` returns pid 4 at
depth 1 while pid 3 sits at depth 2 — the fallback does not pick a PID of
maximal depth. -/
theorem select_fallback_not_deepest :
    select_target_child_pid [(1, [2, 4]), (2, [3])]
        [(2, "bash job"), (3, "bash job2"), (4, "sleep")] 1 = some 4 ∧
    (∀ c ∈ candidatesOf [(1, [2, 4]), (2, [3])]
        [(2, "bash job"), (3, "bash job2"), (4, "sleep")] 1, c.2.1 ≤ 0) ∧
    (4, 1) ∈ collect_descendants_with_depth [(1, [2, 4]), (2, [3])] 1 ∧
    ∃ pr ∈ collect_descendants_with_depth [(1, [2, 4]), (2, [3])] 1,
      1 < pr.2 := by
  refine ⟨by decide, by decide, by decide, ⟨(3, 2), by decide, by decide⟩⟩

/-- C2 amended: when the descendant map is non-empty and no candidate scores
strictly positively, `_select_target_child_pid` returns the pid of a
candidate whose `(score, depth)` pair is lexicographically maximal — the
deepest among the maximum-score candidates, which need not be the globally
deepest descendant. -/
theorem select_fallback_max_key (children : List (Nat × List Nat))
    (cmds : List (Nat × String)) (root : Nat)
    (hne : collect_descendants_with_depth children root ≠ [])
    (hnp : ∀ c ∈ candidatesOf children cmds root, c.2.1 ≤ 0) :
    ∃ c, c ∈ candidatesOf children cmds root ∧
      select_target_child_pid children cmds root = some c.1 ∧
      ∀ c2 ∈ candidatesOf children cmds root, candKeyGE c c2 = true := by
  have hfind : (sortCands (candidatesOf children cmds root)).find?
      (fun c => decide (0 < c.2.1)) = none := by
    apply List.find?_eq_none.mpr
    intro x hx
    have := hnp x (mem_sortCands.mp hx)
    simp only [decide_eq_true_eq]
    omega
  have hlen : (sortCands (candidatesOf children cmds root)).length ≠ 0 := by
    rw [length_sortCands]
    unfold candidatesOf
    simp only [List.length_map]
    intro h
    exact hne (List.eq_nil_of_length_eq_zero h)
  cases hs : sortCands (candidatesOf children cmds root) with
  | nil => exact absurd (by rw [hs]; rfl) hlen
  | cons c t =>
    refine ⟨c, ?_, ?_, ?_⟩
    · exact mem_sortCands.mp (hs ▸ List.mem_cons_self c t)
    · unfold select_target_child_pid
      rw [if_neg (by simpa [List.isEmpty_iff] using hne)]
      rw [hs] at hfind
      simp only [hfind, hs]
    · intro c2 hc2
      have hc2s : c2 ∈ sortCands (candidatesOf children cmds root) :=
        mem_sortCands.mpr hc2
      rw [hs] at hc2s
      rcases List.mem_cons.mp hc2s with hc2s | hc2s
      · exact hc2s ▸ candKeyGE_refl c
      · have hp := pairwise_sortCands (candidatesOf children cmds root)
        rw [hs] at hp
        exact (List.pairwise_cons.mp hp).1 c2 hc2s

/-- C2 witness: in the counterexample tree the fallback pick (pid 4, score 0,
depth 1) is indeed the `(score, depth)`-maximal candidate. -/
theorem select_fallback_max_key_witness :
    ∃ c, c ∈ candidatesOf [(1, [2, 4]), (2, [3])]
        [(2, "bash job"), (3, "bash job2"), (4, "sleep")] 1 ∧
      select_target_child_pid [(1, [2, 4]), (2, [3])]
        [(2, "bash job"), (3, "bash job2"), (4, "sleep")] 1 = some c.1 ∧
      ∀ c2 ∈ candidatesOf [(1, [2, 4]), (2, [3])]
          [(2, "bash job"), (3, "bash job2"), (4, "sleep")] 1,
        candKeyGE c c2 = true :=
  select_fallback_max_key [(1, [2, 4]), (2, [3])]
    [(2, "bash job"), (3, "bash job2"), (4, "sleep")] 1 (by decide) (by decide)

/-- Weakening the filter predicate cannot shrink the kept length. -/
theorem length_filter_mono {l : List Nat} {p q : Nat → Bool}
    (himp : ∀ x, q x = true → p x = true) :
    (l.filter q).length ≤ (l.filter p).length := by
  induction l with
  | nil => exact Nat.le_refl 0
  | cons a as ih =>
    by_cases hq : q a = true
    · simp [List.filter_cons, hq, himp a hq, ih]
    · have : q a = false := Bool.eq_false_iff.mpr hq
      by_cases hp : p a = true
      · simp [List.filter_cons, this, hp]
        omega
      · simp [List.filter_cons, this, Bool.eq_false_iff.mpr hp, ih]

/-- A member kept by the weaker predicate but dropped by the stronger one
makes the inequality strict. -/
theorem length_filter_strict {l : List Nat} {p q : Nat → Bool}
    (himp : ∀ x, q x = true → p x = true) {c : Nat} (hc : c ∈ l)
    (hpc : p c = true) (hqc : q c = false) :
    (l.filter q).length < (l.filter p).length := by
  induction l with
  | nil => cases hc
  | cons a as ih =>
    by_cases hq : q a = true
    · have hp := himp a hq
      have hca : c ∈ as := by
        rcases List.mem_cons.mp hc with h | h
        · rw [h, hq] at hqc
          exact absurd hqc (by simp)
        · exact h
      have := ih hca
      simp [List.filter_cons, hq, hp]
      omega
    · have hqf : q a = false := Bool.eq_false_iff.mpr hq
      by_cases hp : p a = true
      · have hmono := length_filter_mono (l := as) himp
        rcases List.mem_cons.mp hc with h | h
        · simp [List.filter_cons, hqf, hp]
          omega
        · have := ih h
          simp [List.filter_cons, hqf, hp]
          omega
      · have hpf : p a = false := Bool.eq_false_iff.mpr hp
        have hca : c ∈ as := by
          rcases List.mem_cons.mp hc with h | h
          · rw [h, hpf] at hpc
            exact absurd hpc (by simp)
          · exact h
        simp only [List.filter_cons, hqf, hpf, Bool.false_eq_true, if_neg]
        exact ih hca

/-- Growing the seen-set cannot grow the unseen count. -/
theorem unseenCount_cons_le (m : List (Nat × List Nat)) (seen : List Nat)
    (c : Nat) : unseenCount m (c :: seen) ≤ unseenCount m seen := by
  unfold unseenCount
  refine length_filter_mono ?_
  intro x hx
  simp only [decide_eq_true_eq, List.mem_cons] at hx ⊢
  tauto

/-- Marking a fresh universe member seen strictly shrinks the unseen count. -/
theorem unseenCount_cons_lt (m : List (Nat × List Nat)) {seen : List Nat}
    {c : Nat} (hc : c ∈ childUniverse m) (hns : c ∉ seen) :
    unseenCount m (c :: seen) < unseenCount m seen := by
  unfold unseenCount
  refine length_filter_strict ?_ hc ?_ ?_
  · intro x hx
    simp only [decide_eq_true_eq, List.mem_cons] at hx ⊢
    tauto
  · simpa using hns
  · simp

/-- Children returned by a map lookup are members of the child universe. -/
theorem getChildren_subset_universe (m : List (Nat × List Nat)) (p : Nat) :
    ∀ c ∈ getChildren m p, c ∈ childUniverse m := by
  intro c hc
  unfold getChildren at hc
  cases hfind : m.find? (fun e => e.1 == p) with
  | none => rw [hfind] at hc; cases hc
  | some e =>
    rw [hfind] at hc
    have he : e ∈ m := List.mem_of_find?_eq_some hfind
    exact List.mem_flatten.mpr ⟨e.2, List.mem_map_of_mem Prod.snd he, hc⟩

/-- One expansion step cannot increase `unseen count + queued additions`. -/
theorem expandDepth_measure (m : List (Nat × List Nat)) (d : Nat) :
    ∀ (cs seen : List Nat) (dm acc : List (Nat × Nat)),
    (∀ c ∈ cs, c ∈ childUniverse m) →
    unseenCount m (expandDepth d cs seen dm acc).1 +
        (expandDepth d cs seen dm acc).2.2.length
      ≤ unseenCount m seen + acc.length := by
  intro cs
  induction cs with
  | nil => intro seen dm acc _; exact Nat.le_refl _
  | cons c cs ih =>
    intro seen dm acc hsub
    have hcs : ∀ x ∈ cs, x ∈ childUniverse m :=
      fun x hx => hsub x (List.mem_cons_of_mem c hx)
    by_cases hseen : c ∈ seen
    · rw [expandDepth, if_pos hseen]
      exact ih seen dm acc hcs
    · rw [expandDepth, if_neg hseen]
      have h1 := ih (c :: seen) (dm ++ [(c, d + 1)]) (acc ++ [(c, d + 1)]) hcs
      have h2 := unseenCount_cons_lt m (hsub c (List.mem_cons_self c cs)) hseen
      simp only [List.length_append, List.length_cons, List.length_nil] at h1 ⊢
      omega

/-- The depth BFS loop completes whenever the fuel covers the unseen count
plus the queue length. -/
theorem bfsDepthAux_total (m : List (Nat × List Nat)) :
    ∀ (fuel : Nat) (queue : List (Nat × Nat)) (seen : List Nat)
      (dm : List (Nat × Nat)),
    unseenCount m seen + queue.length ≤ fuel →
    (bfsDepthAux m fuel queue seen dm).isSome = true := by
  intro fuel
  induction fuel with
  | zero =>
    intro queue seen dm h
    cases queue with
    | nil => rfl
    | cons q qs => simp [List.length_cons] at h
  | succ n ih =>
    intro queue seen dm h
    cases queue with
    | nil => rfl
    | cons q qs =>
      obtain ⟨cur, d⟩ := q
      have hexp := expandDepth_measure m d (getChildren m cur) seen dm []
        (getChildren_subset_universe m cur)
      rw [bfsDepthAux]
      cases hE : expandDepth d (getChildren m cur) seen dm [] with
      | mk seen2 rest2 =>
        obtain ⟨dm2, add⟩ := rest2
        rw [hE] at hexp
        simp only [List.length_nil] at hexp
        apply ih
        simp only [List.length_append]
        simp only [List.length_cons] at h
        omega

/-- Plain-BFS analogue of `expandDepth_measure`. -/
theorem expandPlain_measure (m : List (Nat × List Nat)) :
    ∀ (cs seen desc acc : List Nat),
    (∀ c ∈ cs, c ∈ childUniverse m) →
    unseenCount m (expandPlain cs seen desc acc).1 +
        (expandPlain cs seen desc acc).2.2.length
      ≤ unseenCount m seen + acc.length := by
  intro cs
  induction cs with
  | nil => intro seen desc acc _; exact Nat.le_refl _
  | cons c cs ih =>
    intro seen desc acc hsub
    have hcs : ∀ x ∈ cs, x ∈ childUniverse m :=
      fun x hx => hsub x (List.mem_cons_of_mem c hx)
    by_cases hseen : c ∈ seen
    · rw [expandPlain, if_pos hseen]
      exact ih seen desc acc hcs
    · rw [expandPlain, if_neg hseen]
      have h1 := ih (c :: seen) (desc ++ [c]) (acc ++ [c]) hcs
      have h2 := unseenCount_cons_lt m (hsub c (List.mem_cons_self c cs)) hseen
      simp only [List.length_append, List.length_cons, List.length_nil] at h1 ⊢
      omega

/-- Plain-BFS analogue of `bfsDepthAux_total`. -/
theorem bfsPlainAux_total (m : List (Nat × List Nat)) :
    ∀ (fuel : Nat) (queue seen desc : List Nat),
    unseenCount m seen + queue.length ≤ fuel →
    (bfsPlainAux m fuel queue seen desc).isSome = true := by
  intro fuel
  induction fuel with
  | zero =>
    intro queue seen desc h
    cases queue with
    | nil => rfl
    | cons q qs => simp [List.length_cons] at h
  | succ n ih =>
    intro queue seen desc h
    cases queue with
    | nil => rfl
    | cons cur qs =>
      have hexp := expandPlain_measure m (getChildren m cur) seen desc []
        (getChildren_subset_universe m cur)
      rw [bfsPlainAux]
      cases hE : expandPlain (getChildren m cur) seen desc [] with
      | mk seen2 rest2 =>
        obtain ⟨desc2, add⟩ := rest2
        rw [hE] at hexp
        simp only [List.length_nil] at hexp
        apply ih
        simp only [List.length_append]
        simp only [List.length_cons] at h
        omega

/-- The unseen count never exceeds the universe size. -/
theorem unseenCount_le_universe (m : List (Nat × List Nat)) (seen : List Nat) :
    unseenCount m seen ≤ (childUniverse m).length :=
  List.length_filter_le _ _

/-- Unfolding lemma for `getChildren` on a cons cell. -/
theorem getChildren_cons (e : Nat × List Nat) (rest : List (Nat × List Nat))
    (p : Nat) :
    getChildren (e :: rest) p = if e.1 == p then e.2 else getChildren rest p := by
  by_cases h : e.1 == p
  · have hf : List.find? (fun x => x.1 == p) (e :: rest) = some e :=
      List.find?_cons_of_pos rest (by simpa using h)
    unfold getChildren
    rw [hf, if_pos h]
  · have hf : List.find? (fun x => x.1 == p) (e :: rest)
        = List.find? (fun x => x.1 == p) rest :=
      List.find?_cons_of_neg rest (by simpa using h)
    unfold getChildren
    rw [hf, if_neg h]

/-- In a map whose child occurrences are pairwise distinct, a node has at most
one parent. -/
theorem getChildren_unique_parent (m : List (Nat × List Nat))
    (h : (childUniverse m).Nodup) :
    ∀ x p q, x ∈ getChildren m p → x ∈ getChildren m q → p = q := by
  induction m with
  | nil =>
    intro x p q hp _
    rw [show getChildren [] p = [] from rfl] at hp
    cases hp
  | cons e rest ih =>
    intro x p q hxp hxq
    have huniv : childUniverse (e :: rest) = e.2 ++ childUniverse rest := by
      unfold childUniverse
      simp
    rw [huniv] at h
    obtain ⟨hnd1, hnd2, hdisj⟩ := List.nodup_append.mp h
    rw [getChildren_cons] at hxp hxq
    by_cases hep : e.1 == p <;> by_cases heq : e.1 == q
    · have h1 : e.1 = p := by simpa using hep
      have h2 : e.1 = q := by simpa using heq
      rw [← h1, ← h2]
    · rw [if_pos hep] at hxp
      rw [if_neg heq] at hxq
      exact absurd (getChildren_subset_universe rest q x hxq) (fun hh => hdisj hxp hh)
    · rw [if_neg hep] at hxp
      rw [if_pos heq] at hxq
      exact absurd (getChildren_subset_universe rest p x hxp) (fun hh => hdisj hxq hh)
    · rw [if_neg hep] at hxp
      rw [if_neg heq] at hxq
      exact ih hnd2 x p q hxp hxq

/-- In a tree-shaped map (pairwise distinct child occurrences, root never a
child), the number of edges from the root to a node is unique. -/
theorem reachN_unique (m : List (Nat × List Nat)) (root : Nat)
    (hchil : (childUniverse m).Nodup) (hroot : root ∉ childUniverse m) :
    ∀ {x n k}, ReachN m root x n → ReachN m root x k → n = k := by
  intro x n k h1
  induction h1 generalizing k with
  | refl =>
    intro h2
    cases h2 with
    | refl => rfl
    | step hp hc => exact absurd (getChildren_subset_universe m _ root hc) hroot
  | step hp hc ih =>
    intro h2
    cases h2 with
    | refl => exact absurd (getChildren_subset_universe m _ _ hc) hroot
    | step hq hcq =>
      have hpq := getChildren_unique_parent m hchil _ _ _ hc hcq
      subst hpq
      rw [ih hq]

/-- A seen-set containing the root and closed under children contains every
reachable node. -/
theorem bfs_closed_complete (m : List (Nat × List Nat)) (root : Nat)
    (seen : List Nat) (hr : root ∈ seen)
    (hclosed : ∀ s ∈ seen, ∀ c ∈ getChildren m s, c ∈ seen) :
    ∀ x n, ReachN m root x n → x ∈ seen := by
  intro x n h
  induction h with
  | refl => exact hr
  | step hp hc ih => exact hclosed _ ih _ hc

/-- Full characterisation of one children-expansion step: it appends the same
block `delta` of `(fresh child, d+1)` entries to the depth map and the queue,
the new seen-set is the old one plus `delta`'s pids, those pids are fresh,
pairwise distinct children of the expanded node, and afterwards every child of
the expanded node is seen. -/
theorem expandDepth_spec (d : Nat) :
    ∀ (cs seen : List Nat) (dm acc : List (Nat × Nat)),
    ∃ (delta : List (Nat × Nat)) (seen2 : List Nat),
      expandDepth d cs seen dm acc = (seen2, dm ++ delta, acc ++ delta) ∧
      (∀ x, x ∈ seen2 ↔ x ∈ seen ∨ x ∈ delta.map Prod.fst) ∧
      (∀ pr ∈ delta, pr.2 = d + 1 ∧ pr.1 ∈ cs ∧ pr.1 ∉ seen) ∧
      (delta.map Prod.fst).Nodup ∧
      (∀ c ∈ cs, c ∈ seen2) := by
  intro cs
  induction cs with
  | nil =>
    intro seen dm acc
    exact ⟨[], seen, by simp [expandDepth], by simp, by simp, by simp, by simp⟩
  | cons c cs ih =>
    intro seen dm acc
    by_cases hseen : c ∈ seen
    · obtain ⟨delta, seen2, heq, hmem, hdel, hnd, hcov⟩ := ih seen dm acc
      refine ⟨delta, seen2, ?_, hmem, ?_, hnd, ?_⟩
      · rw [expandDepth, if_pos hseen]
        exact heq
      · intro pr hpr
        obtain ⟨h1, h2, h3⟩ := hdel pr hpr
        exact ⟨h1, List.mem_cons_of_mem c h2, h3⟩
      · intro x hx
        rcases List.mem_cons.mp hx with rfl | hx
        · exact (hmem x).mpr (Or.inl hseen)
        · exact hcov x hx
    · obtain ⟨delta, seen2, heq, hmem, hdel, hnd, hcov⟩ :=
        ih (c :: seen) (dm ++ [(c, d + 1)]) (acc ++ [(c, d + 1)])
      refine ⟨(c, d + 1) :: delta, seen2, ?_, ?_, ?_, ?_, ?_⟩
      · rw [expandDepth, if_neg hseen, heq]
        simp
      · intro x
        rw [hmem x]
        simp only [List.mem_cons, List.map_cons]
        tauto
      · intro pr hpr
        rcases List.mem_cons.mp hpr with rfl | hpr
        · exact ⟨rfl, List.mem_cons_self c cs, hseen⟩
        · obtain ⟨h1, h2, h3⟩ := hdel pr hpr
          exact ⟨h1, List.mem_cons_of_mem c h2,
            fun hx => h3 (List.mem_cons_of_mem c hx)⟩
      · simp only [List.map_cons]
        refine List.nodup_cons.mpr ⟨?_, hnd⟩
        intro hc
        obtain ⟨pr, hpr, hpr1⟩ := List.mem_map.mp hc
        exact (hdel pr hpr).2.2 (by rw [hpr1]; exact List.mem_cons_self c seen)
      · intro x hx
        rcases List.mem_cons.mp hx with rfl | hx
        · exact (hmem x).mpr (Or.inl (List.mem_cons_self x seen))
        · exact hcov x hx

/-- The final-state part of the BFS invariant: with an empty queue, the
accumulated depth map is sound, key-distinct, and covers every reachable
node. -/
theorem bfs_final_props (m : List (Nat × List Nat)) (root : Nat)
    (seen : List Nat) (dm : List (Nat × Nat))
    (hB : ∀ pr ∈ dm, 0 < pr.2 ∧ ReachN m root pr.1 pr.2)
    (hC : ∀ x, x ∈ seen ↔ (x = root ∨ x ∈ dm.map Prod.fst))
    (hclosed : ∀ s ∈ seen, ∀ c ∈ getChildren m s, c ∈ seen)
    (hF : (dm.map Prod.fst).Nodup) :
    (∀ pr ∈ dm, 0 < pr.2 ∧ ReachN m root pr.1 pr.2) ∧
    (dm.map Prod.fst).Nodup ∧
    (∀ x n, ReachN m root x n → x = root ∨ x ∈ dm.map Prod.fst) := by
  refine ⟨hB, hF, ?_⟩
  intro x n hr
  exact (hC x).mp
    (bfs_closed_complete m root seen ((hC root).mpr (Or.inl rfl)) hclosed x n hr)

/-- The BFS loop invariant of `bfsDepthAux`: from a queue of reachable
entries, a sound and key-distinct depth map, a seen-set equal to root plus
the map's keys, and the property that every seen node is queued or fully
expanded, a successful run yields a sound, key-distinct map covering every
reachable node. -/
theorem bfsDepthAux_invariant (m : List (Nat × List Nat)) (root : Nat) :
    ∀ (fuel : Nat) (queue : List (Nat × Nat)) (seen : List Nat)
      (dm res : List (Nat × Nat)),
    bfsDepthAux m fuel queue seen dm = some res →
    (∀ pr ∈ queue, ReachN m root pr.1 pr.2) →
    (∀ pr ∈ dm, 0 < pr.2 ∧ ReachN m root pr.1 pr.2) →
    (∀ x, x ∈ seen ↔ (x = root ∨ x ∈ dm.map Prod.fst)) →
    (∀ s ∈ seen, s ∈ queue.map Prod.fst ∨ ∀ c ∈ getChildren m s, c ∈ seen) →
    (dm.map Prod.fst).Nodup →
    ((∀ pr ∈ res, 0 < pr.2 ∧ ReachN m root pr.1 pr.2) ∧
     (res.map Prod.fst).Nodup ∧
     (∀ x n, ReachN m root x n → x = root ∨ x ∈ res.map Prod.fst)) := by
  intro fuel
  induction fuel with
  | zero =>
    intro queue seen dm res hrun hA hB hC hE hF
    cases queue with
    | nil =>
      have hdm : dm = res := by simpa [bfsDepthAux] using hrun
      subst hdm
      exact bfs_final_props m root seen dm hB hC
        (fun s hs => (hE s hs).resolve_left (by simp)) hF
    | cons q qs => exact absurd hrun (by simp [bfsDepthAux])
  | succ n ih =>
    intro queue seen dm res hrun hA hB hC hE hF
    cases queue with
    | nil =>
      have hdm : dm = res := by simpa [bfsDepthAux] using hrun
      subst hdm
      exact bfs_final_props m root seen dm hB hC
        (fun s hs => (hE s hs).resolve_left (by simp)) hF
    | cons q qs =>
      obtain ⟨cur, dep⟩ := q
      obtain ⟨delta, seen2, heq, hmem, hdel, hnd, hcov⟩ :=
        expandDepth_spec dep (getChildren m cur) seen dm []
      rw [bfsDepthAux] at hrun
      rw [heq] at hrun
      simp only [List.nil_append] at hrun
      have hcur : ReachN m root cur dep :=
        hA (cur, dep) (List.mem_cons_self _ _)
      have hdelR : ∀ pr ∈ delta, ReachN m root pr.1 pr.2 := by
        intro pr hpr
        obtain ⟨h1, h2, _⟩ := hdel pr hpr
        rw [h1]
        exact ReachN.step hcur h2
      refine ih (qs ++ delta) seen2 (dm ++ delta) res hrun ?_ ?_ ?_ ?_ ?_
      · intro pr hpr
        rcases List.mem_append.mp hpr with hpr | hpr
        · exact hA pr (List.mem_cons_of_mem _ hpr)
        · exact hdelR pr hpr
      · intro pr hpr
        rcases List.mem_append.mp hpr with hpr | hpr
        · exact hB pr hpr
        · refine ⟨?_, hdelR pr hpr⟩
          rw [(hdel pr hpr).1]
          exact Nat.succ_pos dep
      · intro x
        rw [hmem x, hC x, List.map_append, List.mem_append]
        tauto
      · intro s hs
        rcases (hmem s).mp hs with hsseen | hsdelta
        · rcases hE s hsseen with hq | hcl
          · simp only [List.map_cons, List.mem_cons] at hq
            rcases hq with rfl | hq
            · exact Or.inr (fun c hc => hcov c hc)
            · refine Or.inl ?_
              rw [List.map_append]
              exact List.mem_append_left _ hq
          · exact Or.inr (fun c hc => (hmem c).mpr (Or.inl (hcl c hc)))
        · refine Or.inl ?_
          rw [List.map_append]
          exact List.mem_append_right _ hsdelta
      · rw [List.map_append]
        refine List.Nodup.append hF hnd ?_
        intro a ha hd
        obtain ⟨pr, hpr, hpr1⟩ := List.mem_map.mp hd
        exact (hdel pr hpr).2.2 (by rw [hpr1]; exact (hC a).mpr (Or.inr ha))

/-- C5: for a tree-shaped children map — every pid occurs as a child at most
once across the whole map and the root is nobody's child —
`_collect_descendants_with_depth(root)` has pairwise distinct keys, and
`(x, n)` is an entry iff `x` is reachable from the root in exactly `n ≥ 1`
edges: the keys are exactly the nodes reachable from the root (root itself
excluded) and each value is the edge count of the path from the root. -/
theorem collect_descendants_with_depth_tree (m : List (Nat × List Nat))
    (root : Nat) (hchil : (childUniverse m).Nodup)
    (hroot : root ∉ childUniverse m) :
    ((collect_descendants_with_depth m root).map Prod.fst).Nodup ∧
    ∀ x n, ((x, n) ∈ collect_descendants_with_depth m root ↔
      (0 < n ∧ ReachN m root x n)) := by
  have htot := bfsDepthAux_total m (bfsFuel m) [(root, 0)] [root] [] (by
    have := unseenCount_le_universe m [root]
    simp only [List.length_cons, List.length_nil, bfsFuel]
    omega)
  obtain ⟨res, hres⟩ := Option.isSome_iff_exists.mp htot
  have hcol : collect_descendants_with_depth m root = res := by
    unfold collect_descendants_with_depth
    rw [hres]
    rfl
  have hinv := bfsDepthAux_invariant m root (bfsFuel m) [(root, 0)] [root] [] res
    hres
    (by
      intro pr hpr
      rcases List.mem_singleton.mp hpr with rfl
      exact ReachN.refl)
    (by intro pr hpr; cases hpr)
    (by intro x; simp)
    (by intro s hs; exact Or.inl (by simpa using hs))
    (by simp)
  obtain ⟨hB, hF, hcomp⟩ := hinv
  constructor
  · rw [hcol]
    exact hF
  · intro x n
    rw [hcol]
    constructor
    · intro hmem
      exact hB (x, n) hmem
    · rintro ⟨hn, hr⟩
      rcases hcomp x n hr with rfl | hx
      · cases hr with
        | refl => exact absurd hn (by simp)
        | step hp hc =>
          exact absurd (getChildren_subset_universe m _ _ hc) hroot
      · obtain ⟨pr, hpr, hpr1⟩ := List.mem_map.mp hx
        obtain ⟨a, b⟩ := pr
        have ha : a = x := hpr1
        subst ha
        have hb : b = n :=
          reachN_unique m root hchil hroot (hB (a, b) hpr).2 hr
        subst hb
        exact hpr

/-- C5 witness: on the concrete tree `{1: [2, 3], 2: [4]}` the depth map has
distinct keys and records pid 4 at depth 2. -/
theorem collect_descendants_with_depth_tree_witness :
    ((collect_descendants_with_depth [(1, [2, 3]), (2, [4])] 1).map
      Prod.fst).Nodup ∧
    (4, 2) ∈ collect_descendants_with_depth [(1, [2, 3]), (2, [4])] 1 := by
  have h := collect_descendants_with_depth_tree [(1, [2, 3]), (2, [4])] 1
    (by decide) (by decide)
  refine ⟨h.1, (h.2 4 2).mpr ⟨by decide, ?_⟩⟩
  have h1 : (2 : Nat) ∈ getChildren [(1, [2, 3]), (2, [4])] 1 := by decide
  have h2 : (4 : Nat) ∈ getChildren [(1, [2, 3]), (2, [4])] 2 := by decide
  exact ReachN.step (ReachN.step ReachN.refl h1) h2

/-- C8: for every finite children map — cyclic, self-looping or with
duplicate entries — both BFS worklist loops run to completion within the
`bfsFuel` budget: the seen-set prevents re-enqueueing, so the fuelled loops
never exhaust their fuel. -/
theorem collect_descendants_loops_terminate (m : List (Nat × List Nat))
    (root : Nat) :
    (bfsDepthAux m (bfsFuel m) [(root, 0)] [root] []).isSome = true ∧
    (bfsPlainAux m (bfsFuel m) [root] [root] []).isSome = true := by
  constructor
  · apply bfsDepthAux_total
    have := unseenCount_le_universe m [root]
    simp only [List.length_cons, List.length_nil, bfsFuel]
    omega
  · apply bfsPlainAux_total
    have := unseenCount_le_universe m [root]
    simp only [List.length_cons, List.length_nil, bfsFuel]
    omega
